import Mathlib

/-!
Verification of the image-URL pipeline of the Pinterest wallpaper scraper:
URL normalization and classification (pinterest_scraper.py, dev_tools.py)
and the asynchronous cache validator (validate_images.py), shallowly
embedded over Lean strings and lists.
-/

set_option maxRecDepth 10000

namespace PinCache

/-! ### String primitives

Python string membership (`pat in s`), `str.endswith`, `str.lower` and
`re.sub` with literal patterns are modelled over `List Char`. -/

/-- Bool test that the first list is a prefix of the second
(the building block of substring search). -/
def isPre : List Char → List Char → Bool
  | [], _ => true
  | _ :: _, [] => false
  | a :: as, b :: bs => a == b && isPre as bs

/-- Models the Python substring test `p in s`: true iff `p` occurs
contiguously in `s` (always true for the empty pattern). -/
def containsSub : List Char → List Char → Bool
  | p, [] => p.isEmpty
  | p, c :: cs => isPre p (c :: cs) || containsSub p cs

/-- Models Python `str.lower()` for ASCII text (every URL marker the code
compares against is ASCII). -/
def lowerL (s : List Char) : List Char := s.map Char.toLower

/-- Models Python `s.endswith(suf)`. -/
def endsWithL (suf s : List Char) : Bool := isPre suf (s.drop (s.length - suf.length))

/-- Fuel-driven engine of `replaceAll`. Scans left to right; at each
position a non-empty pattern match is replaced and scanning resumes after
the consumed occurrence, exactly as `re.sub` with a literal pattern does.
One fuel unit is spent per consumed character, so fuel `s.length` always
suffices. -/
def replaceAllF : Nat → List Char → List Char → List Char → List Char
  | 0, _, _, s => s
  | _ + 1, _, _, [] => []
  | fuel + 1, p, r, c :: cs =>
    if isPre p (c :: cs) && !p.isEmpty then
      r ++ replaceAllF fuel p r (cs.drop (p.length - 1))
    else
      c :: replaceAllF fuel p r cs

/-- Models `re.sub(p, r, s)` for a non-empty literal pattern `p`:
all non-overlapping occurrences, scanned left to right, are replaced. -/
def replaceAll (p r s : List Char) : List Char := replaceAllF s.length p r s

/-! ### pinterest_scraper.py : URL normalizer and validity filter -/

/-- The replacement segment `/originals/` of `convert_to_original_url`. -/
def originalsSeg : List Char := "/originals/".toList

/-- The four thumbnail-size path segments rewritten by
`convert_to_original_url` and classified as thumbnails by `analyze_cache`. -/
def sizePatterns : List (List Char) :=
  ["/236x/".toList, "/474x/".toList, "/564x/".toList, "/736x/".toList]

/-- Embeds `PinterestScraper.convert_to_original_url` (pinterest_scraper.py
lines 72-89): URLs that are empty or do not mention `pinimg.com` are
returned unchanged; otherwise each thumbnail-size segment is rewritten to
`/originals/` (and `/originals/` is vacuously rewritten to itself). -/
def convert_to_original_url (u : String) : String :=
  if u = "" ∨ containsSub "pinimg.com".toList u.toList = false then u
  else
    ⟨replaceAll originalsSeg originalsSeg
      (replaceAll "/736x/".toList originalsSeg
        (replaceAll "/564x/".toList originalsSeg
          (replaceAll "/474x/".toList originalsSeg
            (replaceAll "/236x/".toList originalsSeg u.toList))))⟩

/-! ### Model of `urllib.parse.urlparse(url).path`

`is_valid_image_url` checks the extension on `urlparse(url).path.lower()`.
`urlparse` is the Python standard library, not part of this repository, so
its path extraction is modelled from CPython `urllib.parse`: control/space
stripping, scheme splitting, netloc splitting after `//`, fragment and
query removal, and parameter splitting at a `;` in the last path segment
for schemes that use parameters. -/

/-- Characters allowed in a URL scheme (CPython `scheme_chars`). -/
def schemeChar (c : Char) : Bool := c.isAlpha || c.isDigit || c == '+' || c == '-' || c == '.'

/-- Splits a list at the first occurrence of `t`, returning the parts
before and after it, or `none` when `t` does not occur. -/
def breakAt (t : Char) : List Char → Option (List Char × List Char)
  | [] => none
  | c :: cs =>
    if c == t then some ([], cs)
    else
      match breakAt t cs with
      | none => none
      | some (a, b) => some (c :: a, b)

/-- C0 control characters and space, stripped from URL ends by CPython. -/
def isCtrlOrSpace (c : Char) : Bool := c.toNat ≤ 32

/-- CPython removes tab/CR/LF anywhere in the URL and strips leading and
trailing control-or-space characters before parsing. -/
def stripControl (s : List Char) : List Char :=
  (((s.filter (fun c => !(c == '\t' || c == '\n' || c == '\r'))).dropWhile
      isCtrlOrSpace).reverse.dropWhile isCtrlOrSpace).reverse

/-- Splits a leading `scheme:` when the text before the first colon is a
well-formed scheme (leading ASCII letter, scheme characters throughout);
returns the lowercased scheme and the remainder. -/
def splitScheme (s : List Char) : List Char × List Char :=
  match breakAt ':' s with
  | none => ([], s)
  | some (pre, post) =>
    match pre with
    | [] => ([], s)
    | c0 :: _ => if c0.isAlpha && pre.all schemeChar then (lowerL pre, post) else ([], s)

/-- Drops a `//netloc` component: everything after `//` up to the first
`/`, `?` or `#` belongs to the network location, not the path. -/
def dropNetloc : List Char → List Char
  | '/' :: '/' :: rest => rest.dropWhile (fun c => !(c == '/' || c == '?' || c == '#'))
  | s => s

/-- Keeps the part of the list before the first occurrence of `t`. -/
def cutAt (t : Char) (s : List Char) : List Char :=
  match breakAt t s with
  | none => s
  | some (a, _) => a

/-- Schemes for which CPython `urlparse` splits `;parameters` off the
path (`uses_params`, including the empty scheme). -/
def usesParams : List (List Char) :=
  ["".toList, "ftp".toList, "hdl".toList, "prospero".toList, "http".toList,
   "imap".toList, "https".toList, "shttp".toList, "rtsp".toList, "rtspu".toList,
   "sip".toList, "sips".toList, "mms".toList, "sftp".toList, "tel".toList]

/-- CPython `_splitparams`: cut the path at the first `;` occurring in the
last `/`-separated segment (or anywhere when there is no slash). -/
def splitParams (p : List Char) : List Char :=
  match breakAt '/' p.reverse with
  | none => cutAt ';' p
  | some (a, b) =>
    match breakAt ';' a.reverse with
    | none => p
    | some (x, _) => b.reverse ++ '/' :: x

/-- The path component of `urllib.parse.urlparse(u)`, as a char list. -/
def urlparsePath (u : String) : List Char :=
  let s0 := stripControl u.toList
  let sr := splitScheme s0
  let r2 := dropNetloc sr.2
  let r3 := cutAt '#' r2
  let p := cutAt '?' r3
  if usesParams.contains sr.1 && containsSub [';'] p then splitParams p else p

/-! ### pinterest_scraper.py : `is_valid_image_url` -/

/-- The deny-list of `is_valid_image_url` (pinterest_scraper.py lines
97-103): blob URLs, data URLs, video thumbnails, story pins, GIFs. -/
def invalid_patterns : List (List Char) :=
  ["blob:".toList, "data:".toList, "video-thumbnails".toList,
   "storypin".toList, ".gif".toList]

/-- The accepted image extensions of `is_valid_image_url`
(pinterest_scraper.py line 114). -/
def valid_extensions : List (List Char) :=
  [".jpg".toList, ".jpeg".toList, ".png".toList, ".webp".toList]

/-- Embeds `PinterestScraper.is_valid_image_url` (pinterest_scraper.py
lines 91-119). `none` models a non-string argument. The deny-list is
matched against the lowercased URL, the CDN check against the raw URL,
and the extension against the lowercased `urlparse` path. -/
def is_valid_image_url : Option String → Bool
  | none => false
  | some u =>
    if u = "" then false
    else if invalid_patterns.any (fun p => containsSub p (lowerL u.toList)) = true then false
    else if containsSub "pinimg.com".toList u.toList = false then false
    else if valid_extensions.any (fun e => endsWithL e (lowerL (urlparsePath u))) = false then false
    else true

/-! ### dev_tools.py : resolution-tier classifier (`analyze_cache`) -/

/-- The resolution tiers reported by `analyze_cache`. -/
inductive Tier where
  | original
  | thumbnail
  | unknown
deriving DecidableEq

/-- Embeds the tier classification of `analyze_cache` (dev_tools.py lines
56-61): `/originals/` wins, then any thumbnail-size segment, else unknown. -/
def classifyTier (u : String) : Tier :=
  if containsSub originalsSeg u.toList = true then .original
  else if sizePatterns.any (fun p => containsSub p u.toList) = true then .thumbnail
  else .unknown

/-! ### pinterest_scraper.py : scrape-time deduplication -/

/-- A scraped pin record, as built at pinterest_scraper.py lines 217-222
(`title`, `url`, `media`, `quality`; `media` is always present). -/
structure Pin where
  title : String
  url : String
  media : String
  quality : String
deriving DecidableEq

/-- The dedup loop of `scrape_search` / `scrape_board` (pinterest_scraper.py
lines 265-272): `seen` is the set of media URLs already kept, `count` the
number of pins kept so far; a pin with an unseen media URL is appended and
the loop breaks as soon as the kept count reaches `maxPins`. -/
def scrapeDedupGo (maxPins : Nat) : List String → Nat → List Pin → List Pin
  | _, _, [] => []
  | seen, count, p :: ps =>
    if p.media ∈ seen then scrapeDedupGo maxPins seen count ps
    else if maxPins ≤ count + 1 then [p]
    else p :: scrapeDedupGo maxPins (p.media :: seen) (count + 1) ps

/-- The scrape-time deduplication with its `max_pins` cap, started with an
empty seen-set, as in `scrape_search`. -/
def scrape_dedup (pins : List Pin) (maxPins : Nat) : List Pin :=
  scrapeDedupGo maxPins [] 0 pins

/-- Specification-side deduplication, transcribed from the spec words:
a pin is kept iff no earlier pin has the same `media` key (first
occurrence wins, later duplicates dropped, order preserved). `prior`
collects the keys of all earlier pins. -/
def specDedupAux : List String → List Pin → List Pin
  | _, [] => []
  | prior, p :: ps =>
    if p.media ∈ prior then specDedupAux (prior ++ [p.media]) ps
    else p :: specDedupAux (prior ++ [p.media]) ps

/-- Specification-side first-occurrence-wins deduplication. -/
def specDedup (pins : List Pin) : List Pin := specDedupAux [] pins

/-! ### Cache entries and dev_tools.py `remove_duplicates` -/

/-- A well-formed cache entry; `media`/`url`/`title` model the JSON dict
fields of the same names (absent field = `none`). -/
structure Entry where
  title : Option String
  media : Option String
  url : Option String
deriving DecidableEq

/-- Python truthiness projection for an optional string: `None` and the
empty string are falsy. -/
def truthy : Option String → Option String
  | none => none
  | some s => if s = "" then none else some s

/-- Models the expression `entry.get('media') or entry.get('url')`
(validate_images.py lines 90 and 122, dev_tools.py line 139), collapsed to
`none` when the result is falsy. -/
def entryKey (e : Entry) : Option String :=
  match e.media with
  | none => truthy e.url
  | some m => if m = "" then truthy e.url else some m

/-- The loop of `remove_duplicates` (dev_tools.py lines 135-143): an item
is kept iff its resolved URL key is truthy and not seen before. -/
def remove_duplicatesGo : List String → List Entry → List Entry
  | _, [] => []
  | seen, e :: es =>
    match entryKey e with
    | none => remove_duplicatesGo seen es
    | some u =>
      if u ∈ seen then remove_duplicatesGo seen es
      else e :: remove_duplicatesGo (u :: seen) es

/-- Embeds `remove_duplicates` of dev_tools.py (the maintenance dedup
command), restricted to its pure filtering of the loaded entry list. -/
def remove_duplicates (l : List Entry) : List Entry := remove_duplicatesGo [] l

/-! ### validate_images.py : the validation engine

Network behaviour is an oracle: for each URL the world fixes the outcome
of the HEAD and GET requests, either a raised transport exception or a
response with a status code and a Content-Type header. -/

/-- Transport-level exception classes caught by `check_url`
(`except Exception` at validate_images.py line 61). -/
inductive PExn where
  | timeoutError
  | clientConnectorError
  | otherError
deriving DecidableEq

/-- Outcome of one HTTP request: a raised transport exception, or a
response carrying its status and Content-Type header. -/
inductive TransportResult where
  | raised (ex : PExn)
  | resp (status : Nat) (contentType : String)

/-- The network oracle: outcomes of the pooled session's HEAD and GET
requests per URL. -/
structure ProbeWorld where
  head : String → TransportResult
  get : String → TransportResult

/-- The `try` body of `ImageValidator.check_url` (validate_images.py lines
46-59) without its exception handler: HEAD with status below 400 and an
image Content-Type succeeds; otherwise the GET fallback decides; a
transport exception in either request propagates as `Except.error`. -/
def check_url_try (w : ProbeWorld) (u : String) : Except PExn Bool :=
  match w.head u with
  | .raised ex => .error ex
  | .resp s ct =>
    if s < 400 && containsSub "image".toList (lowerL ct.toList) then .ok true
    else
      match w.get u with
      | .raised ex => .error ex
      | .resp s2 ct2 =>
        .ok (if s2 < 400 then containsSub "image".toList (lowerL ct2.toList) else false)

/-- Embeds `ImageValidator.check_url` (validate_images.py lines 41-65):
falsy or non-string URLs are rejected outright, and the exception handler
turns every raised transport error into `false`. -/
def check_url (w : ProbeWorld) : Option String → Bool
  | none => false
  | some u =>
    if u = "" then false
    else
      match check_url_try w u with
      | .error _ => false
      | .ok b => b

/-- Embeds `ImageValidator.validate_entry` (validate_images.py lines
120-124): pairs the entry with the probe verdict on its resolved URL. -/
def validate_entry (w : ProbeWorld) (e : Entry) : Entry × Bool :=
  (e, check_url w (entryKey e))

/-- Fuel-driven slicing `tasks[i:i+10]` for `i = 0, 10, 20, ...`
(validate_images.py lines 95-97); one fuel unit covers at least one
consumed element, so fuel `l.length` always suffices. -/
def chunks10F : Nat → List α → List (List α)
  | 0, _ => []
  | _ + 1, [] => []
  | fuel + 1, c :: cs => ((c :: cs).take 10) :: chunks10F fuel ((c :: cs).drop 10)

/-- The batch decomposition of the task list with the hard-coded batch
size 10. -/
def chunks10 (l : List α) : List (List α) := chunks10F l.length l

/-- The result-collection loop over one gathered batch (validate_images.py
lines 100-105): valid entries are appended to the accumulator in the order
`asyncio.gather` returns them, which is submission order. -/
def appendValid : List Entry → List (Entry × Bool) → List Entry
  | acc, [] => acc
  | acc, r :: rs => appendValid (if r.2 then acc ++ [r.1] else acc) rs

/-- The outer batch loop of `validate_cache` (validate_images.py lines
96-108): batches are gathered and folded into `valid_entries` one after
another. -/
def processBatches (w : ProbeWorld) : List Entry → List (List Entry) → List Entry
  | acc, [] => acc
  | acc, b :: bs => processBatches w (appendValid acc (b.map (validate_entry w))) bs

/-- One record of the decoded JSON array: a dict (well-formed entry) or a
non-dict value, on which `entry.get` raises `AttributeError`. -/
inductive Rec where
  | dict (e : Entry)
  | nonDict
deriving DecidableEq

/-- The fatal exception classes a validation run can raise. -/
inductive VError where
  | osError
  | jsonDecodeError
  | typeError
  | attributeError
deriving DecidableEq

/-- The task-construction loop of `validate_cache` (validate_images.py
lines 89-92): entries with a truthy resolved URL become tasks, in input
order; the first non-dict record raises `AttributeError`. -/
def buildTasks : List Rec → Except VError (List Entry)
  | [] => .ok []
  | .nonDict :: _ => .error .attributeError
  | .dict e :: rest =>
    match entryKey e with
    | none => buildTasks rest
    | some _ =>
      match buildTasks rest with
      | .error er => .error er
      | .ok ts => .ok (e :: ts)

/-- Observable state of the cache file when `validate_cache` opens it:
absent; present but unreadable (`open`/`read` raises `OSError`); readable
but not JSON (`json.load` raises); JSON but without a length (`len` raises
`TypeError` before the session is created); or a sequence of records. -/
inductive CacheFile where
  | missing
  | readError
  | badJson
  | badShape
  | records (recs : List Rec)
deriving DecidableEq

/-- Observable outcome of one `validate_cache` call: the returned value or
raised exception, plus whether the pooled HTTP session was opened and
whether it was closed. -/
structure RunOutcome where
  result : Except VError (List Entry)
  sessionOpened : Bool
  sessionClosed : Bool

/-- Embeds `ImageValidator.validate_cache` (validate_images.py lines
67-118). A missing file prints an error and returns `[]`; read, JSON and
shape failures raise before the session is opened; the session is opened
after loading, and `await self.session.close()` (line 110) runs only when
task construction and every batch complete, as there is no try/finally. -/
def validate_cache (w : ProbeWorld) : CacheFile → RunOutcome
  | .missing => ⟨.ok [], false, false⟩
  | .readError => ⟨.error .osError, false, false⟩
  | .badJson => ⟨.error .jsonDecodeError, false, false⟩
  | .badShape => ⟨.error .typeError, false, false⟩
  | .records recs =>
    match buildTasks recs with
    | .error er => ⟨.error er, true, false⟩
    | .ok tasks => ⟨.ok (processBatches w [] (chunks10 tasks)), true, true⟩

/-- True when the record list contains a non-dict value, i.e. is not a
well-formed sequence of entry-like records. -/
def hasNonDict (recs : List Rec) : Bool :=
  recs.any (fun r => match r with | .nonDict => true | .dict _ => false)

/-- The backup-and-write decision of `main` (validate_images.py lines
156-165) applied to the outcome of one `validate_cache` call: a raised
error propagates with no write (`none`); an empty result also writes
nothing; otherwise the validated entries are written. -/
def runStep (r : Except VError (List Entry)) : Except VError (Option (List Entry)) :=
  match r with
  | .error er => .error er
  | .ok l => .ok (if l.isEmpty then none else some l)

/-- The per-file logic of `main` (validate_images.py lines 151-165):
missing files are skipped before `validate_cache` is even called. -/
def run_file (w : ProbeWorld) (f : CacheFile) : Except VError (Option (List Entry)) :=
  match f with
  | .missing => .ok none
  | f2 => runStep (validate_cache w f2).result

/-- One step of the engine's observable schedule: a barrier-awaited batch
of `n` concurrent probes, or an inter-batch pause of `d` time units. -/
inductive BatchEvent where
  | gatherB (n : Nat)
  | sleepB (d : ℚ)
deriving DecidableEq

/-- The schedule of the batch loop (validate_images.py lines 96-108): for
each slice, one gather of the whole slice followed by an
`asyncio.sleep(0.5)` pause; batches never overlap because each gather is
awaited before the loop continues. -/
def batchSchedule (tasks : List Entry) : List BatchEvent :=
  (chunks10 tasks).flatMap (fun b => [.gatherB b.length, .sleepB (1 / 2)])

/-- True when no two batch events are adjacent in the schedule, i.e. a
pause separates every pair of consecutive batches. -/
def noAdjacentGathers : List BatchEvent → Bool
  | .gatherB _ :: .gatherB _ :: _ => false
  | _ :: rest => noAdjacentGathers rest
  | [] => true

/-- The list of batch lengths produced by `chunks10`, computed from the
input length alone. -/
def chunksLenF : Nat → Nat → List Nat
  | 0, _ => []
  | _ + 1, 0 => []
  | fuel + 1, n + 1 => min 10 (n + 1) :: chunksLenF fuel (n + 1 - 10)

/-! ### Lemmas on the string primitives -/

/-- Unfolding `String.toList` on an explicitly constructed string. -/
theorem toList_mk (l : List Char) : (⟨l⟩ : String).toList = l := rfl

/-- Every list has itself as a prefix, whatever follows. -/
theorem isPre_append (p t : List Char) : isPre p (p ++ t) = true := by
  induction p with
  | nil => rfl
  | cons a as ih => simp [isPre, ih]

/-- A prefix match decomposes the scanned list as pattern plus remainder. -/
theorem isPre_decomp : ∀ (p s : List Char), isPre p s = true → s = p ++ s.drop p.length := by
  intro p
  induction p with
  | nil => intro s _; simp
  | cons a as ih =>
    intro s h
    cases s with
    | nil => simp [isPre] at h
    | cons b bs =>
      simp only [isPre, Bool.and_eq_true, beq_iff_eq] at h
      obtain ⟨h1, h2⟩ := h
      subst h1
      simp only [List.length_cons, List.drop_succ_cons, List.cons_append, List.cons.injEq,
        true_and]
      exact ih bs h2

/-- A list occurs in itself followed by anything. -/
theorem containsSub_append_self (r t : List Char) : containsSub r (r ++ t) = true := by
  cases r with
  | nil =>
    cases t with
    | nil => rfl
    | cons c cs => simp [containsSub, isPre]
  | cons a as =>
    show containsSub (a :: as) (a :: (as ++ t)) = true
    rw [containsSub,
      show isPre (a :: as) (a :: (as ++ t)) = true from isPre_append (a :: as) t,
      Bool.true_or]

/-- Occurrence in the tail gives occurrence in the whole list. -/
theorem containsSub_cons_of (p : List Char) (c : Char) (cs : List Char)
    (h : containsSub p cs = true) : containsSub p (c :: cs) = true := by
  simp [containsSub, h]

/-- A non-empty pattern never occurs in the empty list. -/
theorem containsSub_nil_of_ne (p : List Char) (hp : p ≠ []) : containsSub p [] = false := by
  cases p with
  | nil => exact absurd rfl hp
  | cons a as => rfl

/-- Splitting an occurrence at the head: either the pattern matches right
here or it occurs in the tail. -/
theorem containsSub_cons_elim (p : List Char) (c : Char) (cs : List Char)
    (h : containsSub p (c :: cs) = true) (hpre : isPre p (c :: cs) = false) :
    containsSub p cs = true := by
  rw [containsSub, hpre, Bool.false_or] at h
  exact h

/-- When the pattern does not occur, `replaceAllF` is the identity, for
any amount of fuel. -/
theorem replaceAllF_no_match (p r : List Char) :
    ∀ (f : Nat) (s : List Char), containsSub p s = false → replaceAllF f p r s = s := by
  intro f
  induction f with
  | zero => intro s _; rfl
  | succ f ih =>
    intro s h
    cases s with
    | nil => rfl
    | cons c cs =>
      rw [containsSub] at h
      have h1 : isPre p (c :: cs) = false := by
        cases hI : isPre p (c :: cs)
        · rfl
        · rw [hI, Bool.true_or] at h; exact h
      have h2 : containsSub p cs = false := by
        rw [h1, Bool.false_or] at h; exact h
      rw [replaceAllF, h1, Bool.false_and, if_neg (by simp), ih cs h2]

/-- Replacing a pattern by itself changes nothing, for any fuel. -/
theorem replaceAllF_self (p : List Char) :
    ∀ (f : Nat) (s : List Char), replaceAllF f p p s = s := by
  intro f
  induction f with
  | zero => intro s; rfl
  | succ f ih =>
    intro s
    cases s with
    | nil => rfl
    | cons c cs =>
      rw [replaceAllF]
      by_cases hc : (isPre p (c :: cs) && !p.isEmpty) = true
      · rw [if_pos hc]
        rw [Bool.and_eq_true] at hc
        cases p with
        | nil => simp [List.isEmpty] at hc
        | cons q qs =>
          rw [ih]
          have hd := isPre_decomp (q :: qs) (c :: cs) hc.1
          simp only [List.length_cons, List.drop_succ_cons] at hd
          simp only [List.length_cons, Nat.add_sub_cancel]
          exact hd.symm
      · rw [if_neg hc, ih]

/-- Replacing an occurring non-empty pattern plants the replacement text
into the result (fuel at least the scanned length). -/
theorem replaceAllF_inserts (p r : List Char) (hp : p ≠ []) :
    ∀ (f : Nat) (s : List Char), s.length ≤ f → containsSub p s = true →
      containsSub r (replaceAllF f p r s) = true := by
  intro f
  induction f with
  | zero =>
    intro s hlen h
    have hs : s = [] := List.length_eq_zero.mp (Nat.le_zero.mp hlen)
    subst hs
    rw [containsSub_nil_of_ne p hp] at h
    exact absurd h (by simp)
  | succ f ih =>
    intro s hlen h
    cases s with
    | nil =>
      rw [containsSub_nil_of_ne p hp] at h
      exact absurd h (by simp)
    | cons c cs =>
      rw [replaceAllF]
      by_cases hc : (isPre p (c :: cs) && !p.isEmpty) = true
      · rw [if_pos hc]
        exact containsSub_append_self r _
      · rw [if_neg hc]
        have hpe : p.isEmpty = false := by
          cases p with
          | nil => exact absurd rfl hp
          | cons q qs => rfl
        have hpre : isPre p (c :: cs) = false := by
          cases hI : isPre p (c :: cs)
          · rfl
          · exact absurd (by rw [hI, hpe]; rfl) hc
        have h2 : containsSub p cs = true := containsSub_cons_elim p c cs h hpre
        have hlen2 : cs.length ≤ f := by
          simp only [List.length_cons] at hlen
          omega
        exact containsSub_cons_of r c _ (ih cs hlen2 h2)

/-- `re.sub` with a non-occurring literal pattern is the identity. -/
theorem replaceAll_no_match (p r s : List Char) (h : containsSub p s = false) :
    replaceAll p r s = s := replaceAllF_no_match p r s.length s h

/-- `re.sub` replacing a literal pattern by itself is the identity. -/
theorem replaceAll_self (p s : List Char) : replaceAll p p s = s :=
  replaceAllF_self p s.length s

/-- After replacing an occurring non-empty pattern, the replacement text
occurs in the result. -/
theorem replaceAll_inserts (p r s : List Char) (hp : p ≠ []) (h : containsSub p s = true) :
    containsSub r (replaceAll p r s) = true :=
  replaceAllF_inserts p r hp s.length s le_rfl h

/-- An occurrence of the replacement text survives replacing any non-empty
pattern by that same text: either nothing changes, or a fresh copy of the
replacement is planted. -/
theorem replaceAll_keeps (p r s : List Char) (hp : p ≠ []) (h : containsSub r s = true) :
    containsSub r (replaceAll p r s) = true := by
  cases hcp : containsSub p s
  · rw [replaceAll_no_match p r s hcp]
    exact h
  · exact replaceAll_inserts p r s hp hcp

/-- After the four thumbnail-size rewrites of `convert_to_original_url`,
any input containing a thumbnail-size segment contains `/originals/`. -/
theorem originals_after_rewrite (s : List Char)
    (h : sizePatterns.any (fun p => containsSub p s) = true) :
    containsSub originalsSeg
      (replaceAll "/736x/".toList originalsSeg
        (replaceAll "/564x/".toList originalsSeg
          (replaceAll "/474x/".toList originalsSeg
            (replaceAll "/236x/".toList originalsSeg s)))) = true := by
  have hne236 : "/236x/".toList ≠ [] := by decide
  have hne474 : "/474x/".toList ≠ [] := by decide
  have hne564 : "/564x/".toList ≠ [] := by decide
  have hne736 : "/736x/".toList ≠ [] := by decide
  simp only [sizePatterns, List.any_cons, List.any_nil, Bool.or_eq_true, Bool.or_false] at h
  by_cases c1 : containsSub "/236x/".toList s = true
  · have o1 := replaceAll_inserts "/236x/".toList originalsSeg s hne236 c1
    exact replaceAll_keeps _ _ _ hne736
      (replaceAll_keeps _ _ _ hne564 (replaceAll_keeps _ _ _ hne474 o1))
  · have e1 : replaceAll "/236x/".toList originalsSeg s = s :=
      replaceAll_no_match _ _ _ (Bool.eq_false_iff.mpr c1)
    rw [e1]
    by_cases c2 : containsSub "/474x/".toList s = true
    · have o2 := replaceAll_inserts "/474x/".toList originalsSeg s hne474 c2
      exact replaceAll_keeps _ _ _ hne736 (replaceAll_keeps _ _ _ hne564 o2)
    · have e2 : replaceAll "/474x/".toList originalsSeg s = s :=
        replaceAll_no_match _ _ _ (Bool.eq_false_iff.mpr c2)
      rw [e2]
      by_cases c3 : containsSub "/564x/".toList s = true
      · have o3 := replaceAll_inserts "/564x/".toList originalsSeg s hne564 c3
        exact replaceAll_keeps _ _ _ hne736 o3
      · have e3 : replaceAll "/564x/".toList originalsSeg s = s :=
          replaceAll_no_match _ _ _ (Bool.eq_false_iff.mpr c3)
        rw [e3]
        have c4 : containsSub "/736x/".toList s = true := by
          rcases h with h | h | h | h
          · exact absurd h c1
          · exact absurd h c2
          · exact absurd h c3
          · exact h
        exact replaceAll_inserts "/736x/".toList originalsSeg s hne736 c4

/-! ### Lemmas on batching -/

/-- With fuel at least the list length, the batch slices concatenate back
to the task list. -/
theorem chunks10F_flatten : ∀ (f : Nat) (l : List α), l.length ≤ f →
    (chunks10F f l).flatten = l := by
  intro f
  induction f with
  | zero =>
    intro l hl
    have : l = [] := List.length_eq_zero.mp (Nat.le_zero.mp hl)
    subst this
    rfl
  | succ f ih =>
    intro l hl
    cases l with
    | nil => rfl
    | cons c cs =>
      rw [chunks10F, List.flatten_cons, ih ((c :: cs).drop 10) (by
        rw [List.length_drop]
        simp only [List.length_cons] at hl ⊢
        omega)]
      exact List.take_append_drop 10 (c :: cs)

/-- The batch slices concatenate back to the task list. -/
theorem chunks10_flatten (l : List α) : (chunks10 l).flatten = l :=
  chunks10F_flatten l.length l le_rfl

/-- Every slice produced by `chunks10F` is non-empty and holds at most 10
elements. -/
theorem chunks10F_mem : ∀ (f : Nat) (l : List α) (b : List α), b ∈ chunks10F f l →
    0 < b.length ∧ b.length ≤ 10 := by
  intro f
  induction f with
  | zero =>
    intro l b hb
    exact absurd hb (List.not_mem_nil b)
  | succ f ih =>
    intro l b hb
    cases l with
    | nil => exact absurd hb (List.not_mem_nil b)
    | cons c cs =>
      rw [chunks10F] at hb
      rcases List.mem_cons.mp hb with hb | hb
      · subst hb
        rw [List.length_take]
        constructor
        · simp only [List.length_cons]
          omega
        · omega
      · exact ih _ b hb

/-- Every batch is non-empty and holds at most 10 tasks. -/
theorem chunks10_mem (l : List α) (b : List α) (hb : b ∈ chunks10 l) :
    0 < b.length ∧ b.length ≤ 10 :=
  chunks10F_mem l.length l b hb

/-- The slice lengths are a function of the task-list length alone. -/
theorem chunks10F_map_length : ∀ (f : Nat) (l : List α), l.length ≤ f →
    (chunks10F f l).map List.length = chunksLenF f l.length := by
  intro f
  induction f with
  | zero =>
    intro l hl
    have : l = [] := List.length_eq_zero.mp (Nat.le_zero.mp hl)
    subst this
    rfl
  | succ f ih =>
    intro l hl
    cases l with
    | nil => rfl
    | cons c cs =>
      rw [chunks10F, List.map_cons, List.length_take,
        ih ((c :: cs).drop 10) (by
          rw [List.length_drop]
          simp only [List.length_cons] at hl ⊢
          omega),
        List.length_drop]
      simp only [List.length_cons, chunksLenF]

/-- The batch sizes of a task list are determined by its length. -/
theorem chunks10_map_length (l : List α) :
    (chunks10 l).map List.length = chunksLenF l.length l.length :=
  chunks10F_map_length l.length l le_rfl

/-! ### Lemmas on the batch processing loop -/

/-- The per-batch collection loop appends exactly the entries whose
verdict is true, in order. -/
theorem appendValid_eq : ∀ (rs : List (Entry × Bool)) (acc : List Entry),
    appendValid acc rs = acc ++ rs.filterMap (fun r => if r.2 then some r.1 else none) := by
  intro rs
  induction rs with
  | nil =>
    intro acc
    simp [appendValid]
  | cons r rs ih =>
    intro acc
    rw [appendValid, ih, List.filterMap_cons]
    cases hr : r.2
    · simp
    · simp

/-- Mapping the probe over a batch and keeping the positives is filtering
the batch by the probe. -/
theorem map_validate_filterMap (w : ProbeWorld) (b : List Entry) :
    (b.map (validate_entry w)).filterMap (fun r => if r.2 then some r.1 else none)
      = b.filter (fun e => check_url w (entryKey e)) := by
  induction b with
  | nil => rfl
  | cons e es ih =>
    rw [List.map_cons, List.filterMap_cons, List.filter_cons]
    cases hc : check_url w (entryKey e)
    · simpa [validate_entry, hc] using ih
    · simpa [validate_entry, hc] using ih

/-- The outer batch loop collects, across all batches, the filtered
concatenation of the batches after the accumulator. -/
theorem processBatches_eq (w : ProbeWorld) : ∀ (bs : List (List Entry)) (acc : List Entry),
    processBatches w acc bs = acc ++ bs.flatten.filter (fun e => check_url w (entryKey e)) := by
  intro bs
  induction bs with
  | nil =>
    intro acc
    simp [processBatches]
  | cons b bs ih =>
    intro acc
    rw [processBatches, ih, appendValid_eq, map_validate_filterMap, List.flatten_cons,
      List.filter_append, List.append_assoc]

/-- Run on a task list, the engine returns exactly the tasks whose probe
succeeded, in input order. -/
theorem processBatches_filter (w : ProbeWorld) (tasks : List Entry) :
    processBatches w [] (chunks10 tasks) = tasks.filter (fun e => check_url w (entryKey e)) := by
  rw [processBatches_eq, chunks10_flatten, List.nil_append]

/-! ### Lemmas on task construction -/

/-- On a list of well-formed records, task construction succeeds and keeps
exactly the entries with a truthy resolved URL, in order. -/
theorem buildTasks_dicts : ∀ (l : List Entry),
    buildTasks (l.map Rec.dict) = .ok (l.filter (fun e => (entryKey e).isSome)) := by
  intro l
  induction l with
  | nil => rfl
  | cons e es ih =>
    rw [List.map_cons, buildTasks, List.filter_cons]
    cases hk : entryKey e
    · simp only [hk, Option.isSome_none, Bool.false_eq_true, if_false]
      exact ih
    · simp only [hk, Option.isSome_some, if_true]
      rw [ih]

/-- Task construction raises `AttributeError` when the record list holds a
non-dict value and otherwise returns a task list. -/
theorem buildTasks_cases : ∀ (recs : List Rec),
    (hasNonDict recs = true ∧ buildTasks recs = .error .attributeError)
      ∨ (hasNonDict recs = false ∧ ∃ ts, buildTasks recs = .ok ts) := by
  intro recs
  induction recs with
  | nil => exact Or.inr ⟨rfl, [], rfl⟩
  | cons r rest ih =>
    cases r with
    | nonDict => exact Or.inl ⟨rfl, rfl⟩
    | dict e =>
      have hh : hasNonDict (Rec.dict e :: rest) = hasNonDict rest := by
        simp [hasNonDict]
      rcases ih with ⟨h1, h2⟩ | ⟨h1, ts, h2⟩
      · refine Or.inl ⟨by rw [hh]; exact h1, ?_⟩
        rw [buildTasks]
        cases hk : entryKey e
        · exact h2
        · rw [h2]
      · refine Or.inr ⟨by rw [hh]; exact h1, ?_⟩
        rw [buildTasks]
        cases hk : entryKey e
        · exact ⟨ts, h2⟩
        · rw [h2]
          exact ⟨e :: ts, rfl⟩

/-- Filtering first by key truthiness and then by the probe verdict is the
same as filtering by the probe verdict alone, because the probe rejects
entries without a truthy key. -/
theorem filter_key_check (w : ProbeWorld) : ∀ (l : List Entry),
    (l.filter (fun e => (entryKey e).isSome)).filter (fun e => check_url w (entryKey e))
      = l.filter (fun e => check_url w (entryKey e)) := by
  intro l
  rw [List.filter_filter]
  refine List.filter_congr ?_
  intro e _
  cases hk : entryKey e
  · have hcf : check_url w (none : Option String) = false := rfl
    simp [hk, hcf]
  · simp [hk]

/-! ### Lemmas on the batch schedule -/

/-- Alternating gather/sleep blocks never place two gathers next to each
other. -/
theorem noAdjacentGathers_blocks : ∀ (bs : List (List Entry)),
    noAdjacentGathers (bs.flatMap (fun b => [.gatherB b.length, .sleepB (1 / 2)])) = true := by
  intro bs
  induction bs with
  | nil => rfl
  | cons b rest ih =>
    rw [List.flatMap_cons]
    cases rest with
    | nil => rfl
    | cons b2 rest2 =>
      rw [List.flatMap_cons] at ih ⊢
      exact ih

/-! ### Lemmas on deduplication -/

/-- The capped scrape-time dedup loop computes a `take` of the spec-side
first-occurrence-wins dedup, as long as the cap has not been reached:
`seen` and the spec accumulator `prior` hold the same keys. -/
theorem scrapeDedupGo_eq : ∀ (l : List Pin) (seen prior : List String) (count n : Nat),
    count < n → (∀ m, m ∈ seen ↔ m ∈ prior) →
    scrapeDedupGo n seen count l = (specDedupAux prior l).take (n - count) := by
  intro l
  induction l with
  | nil => intro seen prior count n _ _; simp [scrapeDedupGo, specDedupAux]
  | cons p ps ih =>
    intro seen prior count n hlt hinv
    rw [scrapeDedupGo, specDedupAux]
    by_cases hmem : p.media ∈ seen
    · rw [if_pos hmem, if_pos ((hinv p.media).mp hmem)]
      refine ih seen (prior ++ [p.media]) count n hlt ?_
      intro m
      constructor
      · intro hm
        exact List.mem_append_left _ ((hinv m).mp hm)
      · intro hm
        rcases List.mem_append.mp hm with hm | hm
        · exact (hinv m).mpr hm
        · rw [List.mem_singleton.mp hm]
          exact hmem
    · rw [if_neg hmem, if_neg (fun hc => hmem ((hinv p.media).mpr hc))]
      obtain ⟨d, hd⟩ : ∃ d, n - count = d + 1 := ⟨n - count - 1, by omega⟩
      rw [hd, List.take_succ_cons]
      by_cases hcap : n ≤ count + 1
      · rw [if_pos hcap]
        have : d = 0 := by omega
        subst this
        rw [List.take_zero]
      · rw [if_neg hcap]
        have heq := ih (p.media :: seen) (prior ++ [p.media]) (count + 1) n (by omega) ?_
        · rw [heq]
          have : n - (count + 1) = d := by omega
          rw [this]
        · intro m
          constructor
          · intro hm
            rcases List.mem_cons.mp hm with hm | hm
            · rw [hm]
              exact List.mem_append_right _ (List.mem_singleton.mpr rfl)
            · exact List.mem_append_left _ ((hinv m).mp hm)
          · intro hm
            rcases List.mem_append.mp hm with hm | hm
            · exact List.mem_cons_of_mem _ ((hinv m).mpr hm)
            · rw [List.mem_singleton.mp hm]
              exact List.mem_cons_self _ _

/-- The spec-side dedup output is a subsequence of its input. -/
theorem specDedupAux_sublist : ∀ (l : List Pin) (prior : List String),
    List.Sublist (specDedupAux prior l) l := by
  intro l
  induction l with
  | nil => intro prior; exact List.Sublist.refl []
  | cons p ps ih =>
    intro prior
    rw [specDedupAux]
    by_cases hmem : p.media ∈ prior
    · rw [if_pos hmem]
      exact List.Sublist.cons p (ih (prior ++ [p.media]))
    · rw [if_neg hmem]
      exact List.Sublist.cons₂ p (ih (prior ++ [p.media]))

/-- A pin kept by the spec-side dedup has a key outside the accumulator. -/
theorem specDedupAux_key_notin : ∀ (l : List Pin) (prior : List String) (p : Pin),
    p ∈ specDedupAux prior l → p.media ∉ prior := by
  intro l
  induction l with
  | nil => intro prior p hp; exact absurd hp (List.not_mem_nil p)
  | cons q qs ih =>
    intro prior p hp
    rw [specDedupAux] at hp
    by_cases hmem : q.media ∈ prior
    · rw [if_pos hmem] at hp
      intro hc
      exact ih (prior ++ [q.media]) p hp (List.mem_append_left _ hc)
    · rw [if_neg hmem] at hp
      rcases List.mem_cons.mp hp with hp | hp
      · rw [hp]
        exact hmem
      · intro hc
        exact ih (prior ++ [q.media]) p hp (List.mem_append_left _ hc)

/-- The spec-side dedup emits pairwise distinct keys. -/
theorem specDedupAux_nodup : ∀ (l : List Pin) (prior : List String),
    ((specDedupAux prior l).map Pin.media).Nodup := by
  intro l
  induction l with
  | nil => intro prior; exact List.nodup_nil
  | cons q qs ih =>
    intro prior
    rw [specDedupAux]
    by_cases hmem : q.media ∈ prior
    · rw [if_pos hmem]
      exact ih (prior ++ [q.media])
    · rw [if_neg hmem]
      rw [List.map_cons, List.nodup_cons]
      refine ⟨?_, ih (prior ++ [q.media])⟩
      intro hc
      rcases List.mem_map.mp hc with ⟨r, hr, hrm⟩
      have := specDedupAux_key_notin qs (prior ++ [q.media]) r hr
      exact this (by rw [hrm]; exact List.mem_append_right _ (List.mem_singleton.mpr rfl))

/-- Every key of the input survives into the spec-side dedup output (or
was already in the accumulator). -/
theorem specDedupAux_complete : ∀ (l : List Pin) (prior : List String) (p : Pin),
    p ∈ l → p.media ∈ prior ∨ p.media ∈ (specDedupAux prior l).map Pin.media := by
  intro l
  induction l with
  | nil => intro prior p hp; exact absurd hp (List.not_mem_nil p)
  | cons q qs ih =>
    intro prior p hp
    rw [specDedupAux]
    rcases List.mem_cons.mp hp with hp | hp
    · subst hp
      by_cases hmem : p.media ∈ prior
      · exact Or.inl hmem
      · rw [if_neg hmem, List.map_cons]
        exact Or.inr (List.mem_cons_self _ _)
    · rcases ih (prior ++ [q.media]) p hp with hm | hm
      · rcases List.mem_append.mp hm with hm | hm
        · exact Or.inl hm
        · rw [List.mem_singleton.mp hm]
          by_cases hmem : q.media ∈ prior
          · exact Or.inl hmem
          · rw [if_neg hmem, List.map_cons]
            exact Or.inr (List.mem_cons_self _ _)
      · by_cases hmem : q.media ∈ prior
        · rw [if_pos hmem]
          exact Or.inr hm
        · rw [if_neg hmem, List.map_cons]
          exact Or.inr (List.mem_cons_of_mem _ hm)

/-- Entries kept by `remove_duplicates` always carry a truthy resolved URL
key. -/
theorem remove_duplicatesGo_key : ∀ (l : List Entry) (seen : List String) (e : Entry),
    e ∈ remove_duplicatesGo seen l → (entryKey e).isSome = true := by
  intro l
  induction l with
  | nil => intro seen e he; exact absurd he (List.not_mem_nil e)
  | cons q qs ih =>
    intro seen e he
    cases hk : entryKey q with
    | none =>
      simp only [remove_duplicatesGo, hk] at he
      exact ih seen e he
    | some u =>
      simp only [remove_duplicatesGo, hk] at he
      by_cases hmem : u ∈ seen
      · rw [if_pos hmem] at he
        exact ih seen e he
      · rw [if_neg hmem] at he
        rcases List.mem_cons.mp he with he | he
        · rw [he, hk]
          rfl
        · exact ih (u :: seen) e he

/-! ### Helper lemmas on `is_valid_image_url` -/

/-- Any deny-list hit against the lowercased URL forces rejection. -/
theorem is_valid_deny (u : String) (p : List Char) (hp : p ∈ invalid_patterns)
    (hc : containsSub p (lowerL u.toList) = true) : is_valid_image_url (some u) = false := by
  rw [is_valid_image_url]
  by_cases h0 : u = ""
  · rw [if_pos h0]
  · rw [if_neg h0, if_pos (List.any_eq_true.mpr ⟨p, hp, hc⟩)]

/-- A URL without the CDN marker is rejected. -/
theorem is_valid_domain (u : String)
    (h : containsSub "pinimg.com".toList u.toList = false) :
    is_valid_image_url (some u) = false := by
  rw [is_valid_image_url]
  by_cases h0 : u = ""
  · rw [if_pos h0]
  · rw [if_neg h0]
    by_cases hb : invalid_patterns.any (fun p => containsSub p (lowerL u.toList)) = true
    · rw [if_pos hb]
    · rw [if_neg hb, if_pos h]

/-- A URL whose lowercased parse path ends in none of the accepted
extensions is rejected. -/
theorem is_valid_ext (u : String)
    (h : ∀ e, e ∈ valid_extensions → endsWithL e (lowerL (urlparsePath u)) = false) :
    is_valid_image_url (some u) = false := by
  rw [is_valid_image_url]
  by_cases h0 : u = ""
  · rw [if_pos h0]
  · rw [if_neg h0]
    by_cases hb : invalid_patterns.any (fun p => containsSub p (lowerL u.toList)) = true
    · rw [if_pos hb]
    · rw [if_neg hb]
      by_cases hd : containsSub "pinimg.com".toList u.toList = false
      · rw [if_pos hd]
      · rw [if_neg hd]
        have hext : valid_extensions.any (fun e => endsWithL e (lowerL (urlparsePath u))) = false := by
          cases hA : valid_extensions.any (fun e => endsWithL e (lowerL (urlparsePath u)))
          · rfl
          · rcases List.any_eq_true.mp hA with ⟨x, hx, hpx⟩
            rw [h x hx] at hpx
            exact absurd hpx (by simp)
        rw [if_pos hext]

/-! ### Concrete fixtures for witnesses and counterexamples -/

/-- A network in which every request raises a timeout. -/
def raiseWorld : ProbeWorld :=
  ⟨fun _ => .raised .timeoutError, fun _ => .raised .timeoutError⟩

/-- A network in which the URL `B` is dead (HTML 404 on both probes) and
every other URL serves an image. -/
def abcWorld : ProbeWorld :=
  ⟨fun u => if u = "B" then .resp 404 "text/html" else .resp 200 "image/jpeg",
   fun _ => .resp 404 "text/html"⟩

/-- Cache entry with media URL `A`. -/
def entryA : Entry := ⟨some "a", some "A", none⟩

/-- Cache entry with media URL `B`. -/
def entryB : Entry := ⟨some "b", some "B", none⟩

/-- Cache entry with media URL `C`. -/
def entryC : Entry := ⟨some "c", some "C", none⟩

/-- Cache entry with media URL `X`, used as a dedup witness. -/
def entryX : Entry := ⟨none, some "X", none⟩

/-- Pin with media key `A`. -/
def pinA : Pin := ⟨"ta", "ua", "A", "hd-original"⟩

/-- Pin with media key `B`. -/
def pinB : Pin := ⟨"tb", "ub", "B", "hd-original"⟩

/-- A second pin with media key `A` (a later duplicate). -/
def pinA2 : Pin := ⟨"tc", "uc", "A", "hd-original"⟩

/-- Pin whose media key is the empty string. -/
def pinEmpty : Pin := ⟨"t", "u", "", "hd-original"⟩

/-! ### Characterization of the fatal errors of a validation run -/

/-- A validation run raises exactly when the cache file exists but cannot
be read, is not JSON, has no length, or contains a non-dict record; a
missing file never raises. -/
theorem validate_cache_error_iff (w : ProbeWorld) (f : CacheFile) :
    (∃ er, (validate_cache w f).result = .error er) ↔
      (f = .readError ∨ f = .badJson ∨ f = .badShape ∨
        ∃ recs, f = .records recs ∧ hasNonDict recs = true) := by
  cases f with
  | missing =>
    constructor
    · rintro ⟨er, her⟩
      simp [validate_cache] at her
    · rintro (h | h | h | ⟨recs, h, _⟩) <;> simp at h
  | readError =>
    exact ⟨fun _ => Or.inl rfl, fun _ => ⟨.osError, rfl⟩⟩
  | badJson =>
    exact ⟨fun _ => Or.inr (Or.inl rfl), fun _ => ⟨.jsonDecodeError, rfl⟩⟩
  | badShape =>
    exact ⟨fun _ => Or.inr (Or.inr (Or.inl rfl)), fun _ => ⟨.typeError, rfl⟩⟩
  | records recs =>
    rcases buildTasks_cases recs with ⟨h1, h2⟩ | ⟨h1, ts, h2⟩
    · constructor
      · intro _
        exact Or.inr (Or.inr (Or.inr ⟨recs, rfl, h1⟩))
      · intro _
        exact ⟨.attributeError, by simp [validate_cache, h2]⟩
    · constructor
      · rintro ⟨er, her⟩
        simp [validate_cache, h2] at her
      · rintro (h | h | h | ⟨recs2, heq, hnd⟩)
        · simp at h
        · simp at h
        · simp at h
        · cases heq
          rw [h1] at hnd
          exact absurd hnd (by simp)

/-! ### Claims -/

/-- Claim C1 (amended). Per-URL failure never propagates out of the probe:
whenever the try body of `check_url` raises a transport exception, the
handler returns `false`. The validation run raises a fatal error iff the
cache file exists but cannot be read, cannot be parsed as JSON, has no
length, or contains a record that is not entry-like; a MISSING cache file
does not raise — the run reports the error and returns the empty list
(this is the point where the original claim fails). When the run raises,
the caller performs no write. -/
theorem claim_C1_amended (w : ProbeWorld) (f : CacheFile) (u : String) :
    (∀ ex, check_url_try w u = .error ex → check_url w (some u) = false)
    ∧ ((∃ er, (validate_cache w f).result = .error er) ↔
        (f = .readError ∨ f = .badJson ∨ f = .badShape ∨
          ∃ recs, f = .records recs ∧ hasNonDict recs = true))
    ∧ (validate_cache w .missing).result = .ok []
    ∧ (∀ er, (validate_cache w f).result = .error er → run_file w f = .error er) := by
  refine ⟨?_, validate_cache_error_iff w f, rfl, ?_⟩
  · intro ex hex
    rw [check_url]
    by_cases h0 : u = ""
    · rw [if_pos h0]
    · rw [if_neg h0, hex]
  · intro er her
    cases f with
    | missing => simp [validate_cache] at her
    | readError =>
      show runStep (validate_cache w .readError).result = .error er
      rw [her]
      rfl
    | badJson =>
      show runStep (validate_cache w .badJson).result = .error er
      rw [her]
      rfl
    | badShape =>
      show runStep (validate_cache w .badShape).result = .error er
      rw [her]
      rfl
    | records recs =>
      show runStep (validate_cache w (.records recs)).result = .error er
      rw [her]
      rfl

/-- Claim C1 witness: a concrete run of the amended theorem — with a
network that times out on every request, `check_url` returns `false`
rather than raising. -/
theorem claim_C1_witness :
    check_url raiseWorld (some "https://i.pinimg.com/originals/a.jpg") = false :=
  (claim_C1_amended raiseWorld CacheFile.missing "https://i.pinimg.com/originals/a.jpg").1
    PExn.timeoutError rfl

/-- Claim C1 counterexample to the claim as stated: a cache file that
cannot be read because it does not exist makes `validate_cache` return an
empty list instead of raising a fatal error (validate_images.py lines
73-75). -/
theorem claim_C1_counterexample :
    (validate_cache raiseWorld CacheFile.missing).result = Except.ok ([] : List Entry) := rfl

/-- Claim C2. On a cache of well-formed entries, the validation engine
returns exactly the entries whose probe succeeded, as an ordered
subsequence of the input (original input order, not probe-completion
order); concretely, for `[A, B, C]` with only `B` dead the output is
`[A, C]`. -/
theorem claim_C2 (w : ProbeWorld) (entries : List Entry) :
    (validate_cache w (.records (entries.map Rec.dict))).result
        = .ok (entries.filter (fun e => check_url w (entryKey e)))
    ∧ List.Sublist (entries.filter (fun e => check_url w (entryKey e))) entries
    ∧ (validate_cache abcWorld (.records [.dict entryA, .dict entryB, .dict entryC])).result
        = .ok [entryA, entryC] := by
  refine ⟨?_, List.filter_sublist entries, ?_⟩
  · simp only [validate_cache, buildTasks_dicts]
    rw [processBatches_filter, filter_key_check]
  · rfl

/-- Claim C3. The engine issues probes in batches of at most 10: the
batches concatenate back to the task list in order, every batch is
non-empty with at most 10 tasks, 25 tasks give exactly the three batches
10/10/5, every gather in the schedule awaits at most 10 in-flight probes,
consecutive gathers are always separated by a pause, and every pause
lasts 0.5 time units. Batches never overlap because the schedule is a
sequential list of awaited events. -/
theorem claim_C3 (ts : List Entry) :
    (chunks10 ts).flatten = ts
    ∧ (∀ b, b ∈ chunks10 ts → 0 < b.length ∧ b.length ≤ 10)
    ∧ (ts.length = 25 → (chunks10 ts).map List.length = [10, 10, 5])
    ∧ (∀ n, BatchEvent.gatherB n ∈ batchSchedule ts → n ≤ 10)
    ∧ noAdjacentGathers (batchSchedule ts) = true
    ∧ (∀ d, BatchEvent.sleepB d ∈ batchSchedule ts → d = 1 / 2) := by
  refine ⟨chunks10_flatten ts, fun b hb => chunks10_mem ts b hb, ?_, ?_,
    noAdjacentGathers_blocks (chunks10 ts), ?_⟩
  · intro h25
    rw [chunks10_map_length, h25]
    decide
  · intro n hn
    rcases List.mem_flatMap.mp hn with ⟨b, hb, hev⟩
    rcases List.mem_cons.mp hev with hev | hev
    · cases hev
      exact (chunks10_mem ts b hb).2
    · rcases List.mem_cons.mp hev with hev | hev
      · cases hev
      · exact absurd hev (List.not_mem_nil _)
  · intro d hd
    rcases List.mem_flatMap.mp hd with ⟨b, hb, hev⟩
    rcases List.mem_cons.mp hev with hev | hev
    · cases hev
    · rcases List.mem_cons.mp hev with hev | hev
      · cases hev
        rfl
      · exact absurd hev (List.not_mem_nil _)

/-- Claim C3 witness: a concrete task list of 25 entries is split into
exactly three batches of sizes 10, 10 and 5. -/
theorem claim_C3_witness :
    (chunks10 (List.replicate 25 entryA)).map List.length = [10, 10, 5] :=
  (claim_C3 (List.replicate 25 entryA)).2.2.1 (by decide)

/-- Claim C4. `is_valid_image_url` fails closed: non-string and empty
inputs are rejected; any deny-list substring in the lowercased URL rejects
regardless of domain; any URL without the CDN marker is rejected; any URL
whose parse path does not end (case-insensitively) in an accepted image
extension is rejected; and the two reference URLs behave as specified. -/
theorem claim_C4 (u : String) :
    is_valid_image_url none = false
    ∧ is_valid_image_url (some "") = false
    ∧ (∀ p, p ∈ invalid_patterns → containsSub p (lowerL u.toList) = true →
        is_valid_image_url (some u) = false)
    ∧ (containsSub "pinimg.com".toList u.toList = false →
        is_valid_image_url (some u) = false)
    ∧ ((∀ e, e ∈ valid_extensions → endsWithL e (lowerL (urlparsePath u)) = false) →
        is_valid_image_url (some u) = false)
    ∧ is_valid_image_url (some "https://i.pinimg.com/originals/ab/cd/photo.jpg") = true
    ∧ is_valid_image_url (some "https://i.pinimg.com/originals/ab/cd/photo.gif") = false := by
  refine ⟨rfl, rfl, ?_, is_valid_domain u, is_valid_ext u, by decide, by decide⟩
  intro p hp hc
  exact is_valid_deny u p hp hc

/-- Claim C4 witness: the domain filter concretely rejects a URL hosted
outside the CDN even though its path ends in an accepted extension. -/
theorem claim_C4_witness :
    is_valid_image_url (some "https://example.org/a.jpg") = false :=
  (claim_C4 "https://example.org/a.jpg").2.2.2.1 (by decide)

/-- Claim C10. The deny-list check matches `.gif` against the lowercased
whole URL, not just the extension: any URL containing `.gif` anywhere, in
any letter case, is rejected — including a URL whose `.gif` sits in a
directory segment while the path ends in `.jpg`, and a URL ending in
uppercase `.GIF`. -/
theorem claim_C10 (u : String)
    (h : containsSub ".gif".toList (lowerL u.toList) = true) :
    is_valid_image_url (some u) = false
    ∧ is_valid_image_url (some "https://i.pinimg.com/x.gifts/photo.jpg") = false
    ∧ is_valid_image_url (some "https://i.pinimg.com/originals/a/photo.GIF") = false := by
  refine ⟨?_, by decide, by decide⟩
  exact is_valid_deny u (".gif".toList) (by decide) h

/-- Claim C10 witness: a concrete URL whose only flaw is a `.gif` buried
in the lowercased string is rejected via the theorem. -/
theorem claim_C10_witness :
    is_valid_image_url (some "https://i.pinimg.com/a.GIFx/b.jpg") = false :=
  (claim_C10 "https://i.pinimg.com/a.GIFx/b.jpg" (by decide)).1

/-- Claim C5 (amended). `normalize` is idempotent on every URL that does
not reference the CDN host (such URLs, empty ones included, are returned
unchanged, so a second pass is again the identity) and on every input
whose single pass leaves no thumbnail-size segment behind — in particular
on every URL already normalized to `/originals/`. It is NOT idempotent in
general: overlapping thumbnail segments such as `/236x/236x/` survive one
pass (see the counterexample), because `re.sub` replaces non-overlapping
occurrences scanned over the original string. -/
theorem claim_C5_amended (u : String)
    (h : (u = "" ∨ containsSub "pinimg.com".toList u.toList = false)
      ∨ (∀ p, p ∈ sizePatterns →
          containsSub p (convert_to_original_url u).toList = false)) :
    convert_to_original_url (convert_to_original_url u) = convert_to_original_url u := by
  rcases h with h0 | h
  · have hu : convert_to_original_url u = u := by
      rw [convert_to_original_url, if_pos h0]
    rw [hu]
    exact hu
  · set v := convert_to_original_url u with hv
    by_cases h0 : v = "" ∨ containsSub "pinimg.com".toList v.toList = false
    · rw [convert_to_original_url, if_pos h0]
    · rw [convert_to_original_url, if_neg h0]
      have h236 := h ("/236x/".toList) (by simp [sizePatterns])
      have h474 := h ("/474x/".toList) (by simp [sizePatterns])
      have h564 := h ("/564x/".toList) (by simp [sizePatterns])
      have h736 := h ("/736x/".toList) (by simp [sizePatterns])
      rw [replaceAll_no_match "/236x/".toList originalsSeg v.toList h236,
        replaceAll_no_match "/474x/".toList originalsSeg v.toList h474,
        replaceAll_no_match "/564x/".toList originalsSeg v.toList h564,
        replaceAll_no_match "/736x/".toList originalsSeg v.toList h736,
        replaceAll_self]
      rfl

/-- Claim C5 witness: a concrete non-CDN thumbnail-segment URL (idempotent
because `normalize` is the identity on it) and a concrete CDN thumbnail
URL that one pass fully normalizes, both via the amended theorem. -/
theorem claim_C5_witness :
    convert_to_original_url (convert_to_original_url "https://example.com/236x/a.jpg")
      = convert_to_original_url "https://example.com/236x/a.jpg"
    ∧ convert_to_original_url (convert_to_original_url "https://i.pinimg.com/236x/a/b.jpg")
      = convert_to_original_url "https://i.pinimg.com/236x/a/b.jpg" :=
  ⟨claim_C5_amended "https://example.com/236x/a.jpg" (Or.inl (by decide)),
   claim_C5_amended "https://i.pinimg.com/236x/a/b.jpg" (Or.inr (by decide))⟩

/-- Claim C5 counterexample to the claim as stated: on the CDN URL
`https://i.pinimg.com/236x/236x/a.jpg` one pass leaves `/originals/236x/`
(the second `/236x/` overlapped the first match), so a second pass
changes the URL again — `normalize (normalize u) ≠ normalize u`. -/
theorem claim_C5_counterexample :
    convert_to_original_url (convert_to_original_url "https://i.pinimg.com/236x/236x/a.jpg")
      ≠ convert_to_original_url "https://i.pinimg.com/236x/236x/a.jpg" := by decide

/-- Claim C6 (amended). For every CDN URL (mentioning `pinimg.com`) that
the classifier puts in the thumbnail tier, one pass of `normalize` yields
a URL the classifier puts in the original tier. The restriction to CDN
URLs is forced: `normalize` returns non-CDN URLs unchanged, so a non-CDN
thumbnail-tier URL stays thumbnail-tier (see the counterexample). -/
theorem claim_C6_amended (u : String)
    (h1 : containsSub "pinimg.com".toList u.toList = true)
    (h2 : classifyTier u = Tier.thumbnail) :
    classifyTier (convert_to_original_url u) = Tier.original := by
  rw [classifyTier] at h2
  by_cases ho : containsSub originalsSeg u.toList = true
  · rw [if_pos ho] at h2
    simp at h2
  · rw [if_neg ho] at h2
    by_cases hs : sizePatterns.any (fun p => containsSub p u.toList) = true
    · have hcond : ¬(u = "" ∨ containsSub "pinimg.com".toList u.toList = false) := by
        rintro (he | he)
        · subst he
          exact absurd h1 (by decide)
        · rw [h1] at he
          exact absurd he (by simp)
      rw [convert_to_original_url, if_neg hcond]
      have horig := originals_after_rewrite u.toList hs
      rw [classifyTier, toList_mk, replaceAll_self, if_pos horig]
    · rw [if_neg hs] at h2
      simp at h2

/-- Claim C6 witness: a concrete CDN thumbnail URL is classified original
after normalization, via the amended theorem. -/
theorem claim_C6_witness :
    classifyTier (convert_to_original_url "https://i.pinimg.com/236x/a/b.jpg")
      = Tier.original :=
  claim_C6_amended "https://i.pinimg.com/236x/a/b.jpg" (by decide) (by decide)

/-- Claim C6 counterexample to the claim as stated: the non-CDN URL
`https://example.com/236x/a.jpg` is thumbnail-tier, `normalize` returns it
unchanged (no `pinimg.com`), and it is still classified thumbnail, not
original. -/
theorem claim_C6_counterexample :
    classifyTier "https://example.com/236x/a.jpg" = Tier.thumbnail
    ∧ classifyTier (convert_to_original_url "https://example.com/236x/a.jpg")
        ≠ Tier.original := by decide

/-- Claim C7 (amended). The scrape-time dedup keeps exactly the first
occurrence of each distinct `media` key in stable input order: for every
positive `maxCount`, the output is the first `maxCount` entries of the
full first-occurrence-wins dedup (early entries preferred when the cap
binds), the full dedup is a subsequence of the input with pairwise
distinct keys, every input key is represented, and nothing new is
invented. With `maxCount = 0` the loop appends one entry before checking
the cap (see the counterexample), so zero is excluded. -/
theorem claim_C7_amended (l : List Pin) (n : Nat) (hn : 0 < n) :
    scrape_dedup l n = (specDedup l).take n
    ∧ List.Sublist (specDedup l) l
    ∧ ((specDedup l).map Pin.media).Nodup
    ∧ (∀ p, p ∈ l → p.media ∈ (specDedup l).map Pin.media)
    ∧ (∀ p, p ∈ specDedup l → p ∈ l) := by
  refine ⟨?_, specDedupAux_sublist l [], specDedupAux_nodup l [], ?_, ?_⟩
  · rw [scrape_dedup, specDedup,
      scrapeDedupGo_eq l [] [] 0 n hn (fun m => Iff.rfl), Nat.sub_zero]
  · intro p hp
    rcases specDedupAux_complete l [] p hp with hm | hm
    · exact absurd hm (List.not_mem_nil _)
    · exact hm
  · intro p hp
    exact (specDedupAux_sublist l []).subset hp

/-- Claim C7 witness: on `[A, B, A]` with cap 1 the scrape dedup returns
exactly the first entry, via the amended theorem and evaluation. -/
theorem claim_C7_witness :
    0 < 1 ∧ scrape_dedup [pinA, pinB, pinA2] 1 = (specDedup [pinA, pinB, pinA2]).take 1 :=
  ⟨Nat.one_pos, (claim_C7_amended [pinA, pinB, pinA2] 1 Nat.one_pos).1⟩

/-- Claim C7 counterexample to the claim as stated: with `maxCount = 0`
the loop appends a pin before checking the cap (pinterest_scraper.py lines
270-272), so the output holds one entry where a truncation to the cap
would hold none. -/
theorem claim_C7_counterexample :
    scrape_dedup [pinA] 0 = [pinA]
    ∧ scrape_dedup [pinA] 0 ≠ (specDedup [pinA]).take 0 := by
  constructor
  · rfl
  · decide

/-- Claim C8 (amended). The maintenance dedup `remove_duplicates` never
emits an entry whose resolved media-URL key is falsy: every kept entry has
a truthy key. The scrape-time dedup loop, by contrast, keys on the raw
`media` field without a truthiness check and emits an entry with empty
`media` when one reaches it (see the counterexample). -/
theorem claim_C8_amended (l : List Entry) (e : Entry)
    (h : e ∈ remove_duplicates l) : (entryKey e).isSome = true :=
  remove_duplicatesGo_key l [] e h

/-- Claim C8 witness: a concrete entry kept by `remove_duplicates` has a
truthy key, via the amended theorem. -/
theorem claim_C8_witness : (entryKey entryX).isSome = true :=
  claim_C8_amended [entryX] entryX (by decide)

/-- Claim C8 counterexample to the claim as stated: the scrape-time dedup
loop (pinterest_scraper.py lines 265-272) emits a pin whose `media` key is
the empty string. -/
theorem claim_C8_counterexample :
    scrape_dedup [pinEmpty] 50 = [pinEmpty] ∧ pinEmpty.media = "" := ⟨rfl, rfl⟩

/-- Claim C9 (amended). The pooled session is opened exactly once per run
that gets past loading the cache (precisely on the record-list states),
and it is closed iff task construction succeeded — every run that
completes validation normally closes the session, but a run aborted by a
malformed record after acquisition terminates with the session still open,
because `validate_cache` has no try/finally (see the counterexample).
Runs failing before acquisition never open it. -/
theorem claim_C9_amended (w : ProbeWorld) (f : CacheFile) :
    ((validate_cache w f).sessionOpened = true ↔ ∃ recs, f = .records recs)
    ∧ ((validate_cache w f).sessionClosed = true ↔
        ∃ recs, f = .records recs ∧ hasNonDict recs = false)
    ∧ (∀ l, (validate_cache w f).result = .ok l →
        (validate_cache w f).sessionOpened = true →
        (validate_cache w f).sessionClosed = true) := by
  cases f with
  | missing =>
    refine ⟨⟨fun h => absurd h (by simp [validate_cache]), ?_⟩,
      ⟨fun h => absurd h (by simp [validate_cache]), ?_⟩, ?_⟩
    · rintro ⟨recs, hr⟩
      simp at hr
    · rintro ⟨recs, hr, _⟩
      simp at hr
    · intro l _ hop
      simp [validate_cache] at hop
  | readError =>
    refine ⟨⟨fun h => absurd h (by simp [validate_cache]), ?_⟩,
      ⟨fun h => absurd h (by simp [validate_cache]), ?_⟩, ?_⟩
    · rintro ⟨recs, hr⟩
      simp at hr
    · rintro ⟨recs, hr, _⟩
      simp at hr
    · intro l hl
      simp [validate_cache] at hl
  | badJson =>
    refine ⟨⟨fun h => absurd h (by simp [validate_cache]), ?_⟩,
      ⟨fun h => absurd h (by simp [validate_cache]), ?_⟩, ?_⟩
    · rintro ⟨recs, hr⟩
      simp at hr
    · rintro ⟨recs, hr, _⟩
      simp at hr
    · intro l hl
      simp [validate_cache] at hl
  | badShape =>
    refine ⟨⟨fun h => absurd h (by simp [validate_cache]), ?_⟩,
      ⟨fun h => absurd h (by simp [validate_cache]), ?_⟩, ?_⟩
    · rintro ⟨recs, hr⟩
      simp at hr
    · rintro ⟨recs, hr, _⟩
      simp at hr
    · intro l hl
      simp [validate_cache] at hl
  | records recs =>
    rcases buildTasks_cases recs with ⟨h1, h2⟩ | ⟨h1, ts, h2⟩
    · refine ⟨⟨fun _ => ⟨recs, rfl⟩, fun _ => by simp [validate_cache, h2]⟩, ⟨?_, ?_⟩, ?_⟩
      · intro hcl
        simp [validate_cache, h2] at hcl
      · rintro ⟨recs2, heq, hnd⟩
        cases heq
        rw [h1] at hnd
        exact absurd hnd (by simp)
      · intro l hl
        simp [validate_cache, h2] at hl
    · refine ⟨⟨fun _ => ⟨recs, rfl⟩, fun _ => by simp [validate_cache, h2]⟩,
        ⟨fun _ => ⟨recs, rfl, h1⟩, fun _ => by simp [validate_cache, h2]⟩, ?_⟩
      · intro l _ _
        simp [validate_cache, h2]

/-- Claim C9 witness: a run on a well-formed (empty) record list completes
normally and the session ends closed, via the amended theorem. -/
theorem claim_C9_witness :
    (validate_cache raiseWorld (CacheFile.records [])).sessionClosed = true :=
  (claim_C9_amended raiseWorld (CacheFile.records [])).2.2 [] rfl rfl

/-- Claim C9 counterexample to the claim as stated: a cache holding one
malformed record makes the run raise after the session was opened, and the
session is never closed — the run terminates with the session still open
(no try/finally around validate_images.py lines 85-110). -/
theorem claim_C9_counterexample :
    (validate_cache raiseWorld (CacheFile.records [Rec.nonDict])).sessionOpened = true
    ∧ (validate_cache raiseWorld (CacheFile.records [Rec.nonDict])).sessionClosed = false :=
  ⟨rfl, rfl⟩

end PinCache
